import Mathlib

/-!
Verification development for the scrutinizer examination engine
(`src/lib/index.js` and the extractor plugins shipped with it).

The JavaScript source is shallowly embedded:

* `JVal` models the JSON-compatible values that extractor plugins return and
  the orchestrator accumulates.
* `mergeVal` models lodash `_.merge` on those values (objects merge
  key-by-key, arrays merge index-by-index keeping the longer array's tail,
  any other source value overwrites).
* `lodashPick` / `lodashValues` / `lodashIsEmpty` model the lodash helpers
  used by `filterPlugins`.
* `examineSteps` models the `Bluebird.reduce` loop of
  `examineGitRepository`, instrumented with an event trace so that
  progress reporting, backend instantiation and accumulator updates are
  observable.
* `changelogPlugin` and `architecturePlugin` embed the two extractor
  plugins whose source is part of the repository snapshot.
* `applyOp` / `localCloneOps` model the filesystem effects of
  `exports.local` (temporary-directory creation, `git clone`, and the
  `tmp` library's graceful cleanup that runs at process exit).
-/

/-- JSON-compatible values: the result shape produced by extractor plugins
and threaded through the accumulator (`src/lib/index.js`).  Objects are
association lists in property order, matching JavaScript object key order
for the non-integer string keys used by this code base. -/
inductive JVal where
  | null : JVal
  | bool (b : Bool) : JVal
  | num (n : Int) : JVal
  | str (s : String) : JVal
  | arr (elems : List JVal) : JVal
  | obj (fields : List (String × JVal)) : JVal

/-- First value bound to key `k` in an association list, i.e. JavaScript
property lookup (objects hold each key at most once). -/
def objFind {V : Type} (o : List (String × V)) (k : String) : Option V :=
  (o.find? (fun p => p.1 == k)).map (fun p => p.2)

/-- Scalar (non-container) JSON values: `null`, booleans, numbers, strings. -/
def JVal.isScalar : JVal → Bool
  | JVal.obj _ => false
  | JVal.arr _ => false
  | _ => true

mutual

/-- Deep merge of two JSON values, translated from lodash `_.merge(dst, src)`
as used at `src/lib/index.js:115`: plain objects merge key-by-key, arrays
merge index-by-index (the longer array's trailing elements survive), and any
other source value (scalars, or a container meeting a non-container)
overwrites the destination.  (The lodash corner case of merging a plain
object into an array destination does not arise for the values this code
produces and is folded into the overwrite case.) -/
def mergeVal : JVal → JVal → JVal
  | JVal.obj d, JVal.obj s =>
      JVal.obj (mergeObjUpd d s ++ s.filter (fun p => (objFind d p.1).isNone))
  | JVal.arr a, JVal.arr b => JVal.arr (mergeArr a b)
  | _, s => s
termination_by v _ => sizeOf v


/-- Index-wise merge of two arrays, as lodash `_.merge` performs on array
pairs: positions present in both merge recursively, trailing positions of
the longer array are kept as they are. -/
def mergeArr : List JVal → List JVal → List JVal
  | xs, [] => xs
  | [], y :: ys => y :: ys
  | x :: xs, y :: ys => mergeVal x y :: mergeArr xs ys
termination_by a _ => sizeOf a


/-- The destination fields of an object merge, each updated with the source
value bound to the same key (if any), in destination order. -/
def mergeObjUpd : List (String × JVal) → List (String × JVal) → List (String × JVal)
  | [], _ => []
  | (k, v) :: rest, s =>
      (k, match objFind s k with
          | some sv => mergeVal v sv
          | none => v) :: mergeObjUpd rest s
termination_by d _ => sizeOf d


end

/-- lodash `_.isEmpty` on the optional whitelist argument: `undefined`
(absent) and the empty array are empty, any non-empty array is not. -/
def lodashIsEmpty : Option (List String) → Bool
  | none => true
  | some l => l.isEmpty

/-- lodash `baseSet` on a plain object: overwrite the value at an existing
key in place, otherwise append the new key (JavaScript insertion order). -/
def baseSet {V : Type} (o : List (String × V)) (k : String) (v : V) :
    List (String × V) :=
  if (objFind o k).isSome then
    o.map (fun p => if p.1 == k then (k, v) else p)
  else o ++ [(k, v)]

/-- The loop of lodash `basePickBy`: walk the requested paths in order,
copying each key that exists in the source object into the result object. -/
def pickAux {V : Type} (source : List (String × V)) :
    List (String × V) → List String → List (String × V)
  | r, [] => r
  | r, p :: ps =>
      match objFind source p with
      | some v => pickAux source (baseSet r p v) ps
      | none => pickAux source r ps

/-- lodash `_.pick(object, paths)`: the result object's keys appear in path
order (first occurrence), silently skipping paths absent from the source. -/
def lodashPick {V : Type} (source : List (String × V)) (paths : List String) :
    List (String × V) :=
  pickAux source [] paths

/-- lodash `_.values`: the values of an object in property order. -/
def lodashValues {V : Type} (o : List (String × V)) : List V :=
  o.map (fun p => p.2)

/-- The `BUILTIN_PLUGINS` table of `src/lib/index.js:48-73`, in registration
order.  The plugin functions themselves are opaque to the selector, so each
is represented by its registry name. -/
def BUILTIN_PLUGINS : List (String × String) :=
  [("license", "license"),
   ("blog", "blog"),
   ("changelog", "changelog"),
   ("contributing", "contributing"),
   ("contributors", "contributors"),
   ("docs", "docs"),
   ("security", "security"),
   ("faq", "faq"),
   ("code-of-conduct", "code-of-conduct"),
   ("architecture", "architecture"),
   ("maintainers", "maintainers"),
   ("readme", "readme"),
   ("readme-sections", "readme-sections"),
   ("github-metadata", "github-metadata"),
   ("dependencies", "dependencies"),
   ("last-commit-date", "last-commit-date"),
   ("latest-release", "latest-release"),
   ("latest-prerelease", "latest-prerelease"),
   ("open-issues", "open-issues"),
   ("version", "version"),
   ("deployButtons", "deployButtons"),
   ("screenshot", "screenshot"),
   ("logo", "logo"),
   ("logoBrandMark", "logoBrandMark")]

/-- The canonical registration order of the built-in extractors. -/
def BUILTIN_PLUGIN_NAMES : List String := lodashValues BUILTIN_PLUGINS

/-- `filterPlugins` of `src/lib/index.js:227-233`: keep all plugins when the
whitelist is empty or absent, otherwise `_.pick` the whitelist out of the
registry and return the resulting object's `_.values`. -/
def filterPlugins (pluginWhitelist : Option (List String)) : List String :=
  let plugins := BUILTIN_PLUGINS
  let picked :=
    if lodashIsEmpty pluginWhitelist then plugins
    else lodashPick plugins (pluginWhitelist.getD [])
  lodashValues picked

/-- Observable events of one `examineGitRepository` run
(`src/lib/index.js:103-119`), in the order the loop performs them:
a progress callback invocation, the construction of a fresh backend
instance (identified by a run-unique instance id), the `init()` call on
that instance, the invocation of a plugin with that instance, and the
in-place `_.merge` of the plugin's partial result into the accumulator
(recording the accumulator value after the merge). -/
inductive Event where
  | progress (percentage : Nat) : Event
  | backendNew (instanceId : Nat) (repository reference : String) : Event
  | backendInit (instanceId : Nat) : Event
  | pluginRun (pluginIdx : Nat) (instanceId : Nat) : Event
  | mergeStep (pluginIdx : Nat) (accumulator : JVal) : Event

/-- The environment a run executes against: the repository locator and git
reference the backends are bound to, the outcome of `backend.init()` for the
backend constructed at each loop position, the outcome (partial result or
rejection) of the plugin at each position, and whether a progress callback
was supplied.  `E` is the type of propagated errors. -/
structure RunEnv (E : Type) where
  repository : String
  reference : String
  initOutcome : Nat → Except E Unit
  pluginOutcome : Nat → Except E JVal
  hasProgress : Bool

/-- The `Bluebird.reduce` loop of `examineGitRepository`
(`src/lib/index.js:104-118`), one step per remaining plugin: report
progress `floor(idx * 100 / n)` if a callback was supplied, construct a
fresh backend (instance id `nextId`), call `init()` on it, run the plugin
with it, `_.merge` the partial result into the accumulator, and recurse.
A rejection from `init()` or from the plugin stops the loop and becomes the
run's error.  Returns the event trace and the settled result. -/
def examineSteps (env : RunEnv E) (n : Nat) :
    Nat → Nat → Nat → JVal → List Event × Except E JVal
  | 0, _, _, acc => ([], Except.ok acc)
  | remaining + 1, idx, nextId, acc =>
    let prog := if env.hasProgress then [Event.progress (idx * 100 / n)] else []
    let created := [Event.backendNew nextId env.repository env.reference,
                    Event.backendInit nextId]
    match env.initOutcome idx with
    | Except.error e => (prog ++ created, Except.error e)
    | Except.ok _ =>
      match env.pluginOutcome idx with
      | Except.error e =>
          (prog ++ created ++ [Event.pluginRun idx nextId], Except.error e)
      | Except.ok r =>
          let acc2 := mergeVal acc r
          let rest := examineSteps env n remaining (idx + 1) (nextId + 1) acc2
          (prog ++ created ++
             [Event.pluginRun idx nextId, Event.mergeStep idx acc2] ++ rest.1,
           rest.2)

/-- `examineGitRepository` (`src/lib/index.js:103-119`) run over `n` plugins
starting from accumulator `acc` — `Bluebird.reduce(plugins, step, acc)`.
`id0` is the first fresh backend instance id of the run. -/
def examineGitRepository (env : RunEnv E) (n : Nat) (acc : JVal) (id0 : Nat) :
    List Event × Except E JVal :=
  examineSteps env n n 0 id0 acc

/-- The percentages passed to the progress callback, in invocation order. -/
def progressOf (tr : List Event) : List Nat :=
  tr.filterMap (fun e =>
    match e with
    | Event.progress p => some p
    | _ => none)

/-- Recognizes the `init()` call on backend instance `id`. -/
def isInitFor (id : Nat) : Event → Bool
  | Event.backendInit i => i == id
  | _ => false

/-- A run environment in which every backend `init()` succeeds and the
plugin at position `i` fulfils with partial result `g i`. -/
def successEnv (E : Type) (repo ref : String) (prog : Bool) (g : Nat → JVal) :
    RunEnv E :=
  ⟨repo, ref, fun _ => Except.ok (), fun i => Except.ok (g i), prog⟩

/-- The changelog plugin (`src/unnamed/part_000`): read
`.versionbot/CHANGELOG.yml`; when it is empty, read `CHANGELOG.md` and —
exactly as the source is written — test `_.isEmpty(contents)` (the YAML
contents, not the markdown just read) to choose between `{changelog: []}`
and `{changelog: markdown}`; when the YAML is non-empty, parse it.
`readFile` models the backend (absent file yields empty contents, per the
backend contract) and `yamlLoad` models `js-yaml`'s `safeLoad`. -/
def changelogPlugin (readFile : String → String) (yamlLoad : String → JVal) :
    JVal :=
  let contents := readFile ".versionbot/CHANGELOG.yml"
  if contents.isEmpty then
    let markdown := readFile "CHANGELOG.md"
    if contents.isEmpty then JVal.obj [("changelog", JVal.arr [])]
    else JVal.obj [("changelog", JVal.str markdown)]
  else JVal.obj [("changelog", yamlLoad contents)]

/-- JavaScript `String.prototype.trim`: strip leading and trailing
whitespace. -/
def jsTrim (s : String) : String :=
  String.mk (((s.data.dropWhile Char.isWhitespace).reverse.dropWhile
    Char.isWhitespace).reverse)

/-- The architecture plugin (`src/lib/index.js:256-268` of the snapshot):
read `ARCHITECTURE.md` and `docs/ARCHITECTURE.md`, convert each, and bind
`architecture` to the first non-empty trimmed conversion, falling back to
`null` (the JavaScript `a || b || null` chain on strings, where only the
empty string is falsy).  `convertHtmlToMD` models the markdown utility's
`.contents` output. -/
def architecturePlugin (readFile : String → String)
    (convertHtmlToMD : String → String) : JVal :=
  let a := jsTrim (convertHtmlToMD (readFile "ARCHITECTURE.md"))
  let d := jsTrim (convertHtmlToMD (readFile "docs/ARCHITECTURE.md"))
  JVal.obj [("architecture",
    if a.isEmpty then (if d.isEmpty then JVal.null else JVal.str d)
    else JVal.str a)]

/-- Filesystem operations performed by a local run (`src/lib/index.js:144-173`)
and by the `tmp` library's cleanup. -/
inductive FsOp where
  | mkdir (root : String) : FsOp
  | cloneRepo (src dst : String) : FsOp
  | readTree (root : String) : FsOp
  | rmTree (root : String) : FsOp

/-- Directory trees on disk: each existing root maps to its file contents. -/
def FsState := String → Option (List (String × String))

/-- Effect of one filesystem operation: `mkdir` creates an empty tree,
`cloneRepo` copies the source tree's files into the destination (reading,
never writing, the source), `readTree` reads only, `rmTree` removes the
tree and all its contents. -/
def applyOp (fs : FsState) : FsOp → FsState
  | FsOp.mkdir root => fun r => if r = root then some [] else fs r
  | FsOp.cloneRepo src dst =>
      let files := (fs src).getD []
      fun r => if r = dst then some files else fs r
  | FsOp.readTree _ => fs
  | FsOp.rmTree root => fun r => if r = root then none else fs r

/-- Run a sequence of filesystem operations. -/
def runOps (fs : FsState) (ops : List FsOp) : FsState :=
  ops.foldl applyOp fs

/-- The filesystem operations `exports.local` performs while its promise is
pending (`src/lib/index.js:150-172`): `tmp.dirAsync` creates the temporary
directory, `git().clone` copies the caller's repository into it, and
`examineGitRepository` reads the clone through the `fs` backend.  No removal
happens here: the only cleanup registered is `tmp.setGracefulCleanup()`
(`src/lib/index.js:29`), which runs at process exit. -/
def localCloneOps (src tmpd : String) : List FsOp :=
  [FsOp.mkdir tmpd, FsOp.cloneRepo src tmpd, FsOp.readTree tmpd]

/-- The `tmp` library's graceful cleanup (with `unsafeCleanup: true`): at
process exit, remove the temporary directory and all its contents. -/
def gracefulCleanupOps (tmpd : String) : List FsOp :=
  [FsOp.rmTree tmpd]
/-- A scalar source value always overwrites: later partial results take
precedence on scalar conflicts. -/
theorem mergeVal_scalar (d s : JVal) (h : s.isScalar = true) :
    mergeVal d s = s := by
  cases s <;> simp [JVal.isScalar] at h <;> cases d <;> simp [mergeVal]

/-- Array merge element lookup: positions present in both arrays merge
recursively, a position present in only one array keeps that array's
element — in particular the longer array's trailing elements survive. -/
theorem mergeArr_getElem? (a b : List JVal) (i : Nat) :
    (mergeArr a b)[i]? =
      match a[i]?, b[i]? with
      | some x, some y => some (mergeVal x y)
      | some x, none => some x
      | none, some y => some y
      | none, none => none := by
  induction a generalizing b i with
  | nil =>
    cases b with
    | nil => simp [mergeArr]
    | cons y ys =>
      cases h : (y :: ys)[i]? <;> simp [mergeArr, h]
  | cons x xs ih =>
    cases b with
    | nil =>
      cases h : (x :: xs)[i]? <;> simp [mergeArr, h]
    | cons y ys =>
      cases i with
      | zero => simp [mergeArr]
      | succ j => simpa [mergeArr] using ih ys j

/-- The merged array is as long as the longer input. -/
theorem mergeArr_length (a b : List JVal) :
    (mergeArr a b).length = max a.length b.length := by
  induction a generalizing b with
  | nil => cases b <;> simp [mergeArr]
  | cons x xs ih =>
    cases b with
    | nil => simp [mergeArr]
    | cons y ys => simp [mergeArr, ih, Nat.succ_max_succ]
/-- The fields of an object value (empty for non-objects). -/
def JVal.fields : JVal → List (String × JVal)
  | JVal.obj f => f
  | _ => []

/-- Unfolding lemma: `objFind` on a cons cell. -/
theorem objFind_cons {V : Type} (k0 : String) (v0 : V) (rest : List (String × V))
    (k : String) :
    objFind ((k0, v0) :: rest) k =
      if k0 = k then some v0 else objFind rest k := by
  by_cases h : k0 = k <;> simp [objFind, List.find?_cons, h]

/-- `objFind` distributes over append, preferring the left object. -/
theorem objFind_append {V : Type} (l1 l2 : List (String × V)) (k : String) :
    objFind (l1 ++ l2) k =
      match objFind l1 k with
      | some v => some v
      | none => objFind l2 k := by
  cases h : l1.find? (fun p => p.1 == k) with
  | none => simp [objFind, List.find?_append, h]
  | some p => simp [objFind, List.find?_append, h]

/-- Filtering with a predicate that holds on every entry carrying key `k`
does not change the lookup of `k`. -/
theorem objFind_filter_of_key {V : Type} (s : List (String × V))
    (P : String × V → Bool) (k : String)
    (h : ∀ p ∈ s, p.1 = k → P p = true) :
    objFind (s.filter P) k = objFind s k := by
  induction s with
  | nil => simp
  | cons p rest ih =>
    have hrest : ∀ q ∈ rest, q.1 = k → P q = true := fun q hq => h q (by simp [hq])
    obtain ⟨k0, v0⟩ := p
    by_cases hk : k0 = k
    · subst hk
      have hP : P (k0, v0) = true := h (k0, v0) (by simp) rfl
      simp [List.filter_cons, hP, objFind_cons]
    · cases hP : P (k0, v0) <;>
        simp [List.filter_cons, hP, objFind_cons, hk, ih hrest]

/-- Lookup in the updated-destination part of an object merge: every
destination key is present, bound to its value merged with the source value
at the same key (when the source has one). -/
theorem objFind_mergeObjUpd (d s : List (String × JVal)) (k : String) :
    objFind (mergeObjUpd d s) k =
      (objFind d k).map (fun v =>
        match objFind s k with
        | some sv => mergeVal v sv
        | none => v) := by
  induction d with
  | nil => simp [mergeObjUpd, objFind]
  | cons p rest ih =>
    obtain ⟨k0, v0⟩ := p
    by_cases hk : k0 = k
    · subst hk
      simp [mergeObjUpd, objFind_cons]
    · simp [mergeObjUpd, objFind_cons, hk, ih]

/-- Key-by-key semantics of object merge: a key present in both objects is
bound to the recursive merge of the two values, a key present in only one
keeps that object's binding (source-only keys are appended). -/
theorem objFind_merge (d s : List (String × JVal)) (k : String) :
    objFind (mergeVal (JVal.obj d) (JVal.obj s)).fields k =
      match objFind d k, objFind s k with
      | some dv, some sv => some (mergeVal dv sv)
      | some dv, none => some dv
      | none, o => o := by
  have hobj : mergeVal (JVal.obj d) (JVal.obj s) =
      JVal.obj (mergeObjUpd d s ++
        s.filter (fun p => (objFind d p.1).isNone)) := by
    simp [mergeVal]
  rw [hobj]
  show objFind (mergeObjUpd d s ++
      s.filter (fun p => (objFind d p.1).isNone)) k = _
  rw [objFind_append, objFind_mergeObjUpd]
  cases hd : objFind d k with
  | some dv => cases hs : objFind s k <;> simp [hd, hs]
  | none =>
    have hkeep := objFind_filter_of_key s
      (fun p => (objFind d p.1).isNone) k
      (by intro p hp hk; simp [hk, hd])
    cases hs : objFind s k <;> simp [hd, hs, hkeep]
/-- Any plugin invocation recorded by the loop lies within the processed
index range, and the backend instance it received is the fresh instance
constructed for exactly that position. -/
theorem pluginRun_mem {E : Type} (env : RunEnv E) (n : Nat) :
    ∀ (r idx nid : Nat) (acc : JVal) (i id : Nat),
      Event.pluginRun i id ∈ (examineSteps env n r idx nid acc).1 →
      idx ≤ i ∧ i < idx + r ∧ id = nid + (i - idx) := by
  intro r
  induction r with
  | zero => intro idx nid acc i id h; simp [examineSteps] at h
  | succ r ih =>
    intro idx nid acc i id h
    simp only [examineSteps] at h
    cases hc : env.hasProgress <;> rw [hc] at h <;>
      cases hi : env.initOutcome idx <;> rw [hi] at h
    case false.error e => simp at h
    case true.error e => simp at h
    case false.ok u =>
      cases hp : env.pluginOutcome idx <;> rw [hp] at h <;> simp at h
      · obtain ⟨h1, h2⟩ := h; omega
      · rcases h with ⟨h1, h2⟩ | h
        · omega
        · have := ih _ _ _ _ _ h; omega
    case true.ok u =>
      cases hp : env.pluginOutcome idx <;> rw [hp] at h <;> simp at h
      · obtain ⟨h1, h2⟩ := h; omega
      · rcases h with ⟨h1, h2⟩ | h
        · omega
        · have := ih _ _ _ _ _ h; omega

/-- Immediately before each recorded plugin invocation, the trace shows
the construction of the backend instance the plugin received and the
`init()` call on it: construction and initialization precede every read the
plugin performs. -/
theorem pluginRun_decomp {E : Type} (env : RunEnv E) (n : Nat) :
    ∀ (r idx nid : Nat) (acc : JVal) (i id : Nat),
      Event.pluginRun i id ∈ (examineSteps env n r idx nid acc).1 →
      ∃ pre post, (examineSteps env n r idx nid acc).1 =
        pre ++ Event.backendNew id env.repository env.reference ::
               Event.backendInit id :: Event.pluginRun i id :: post := by
  intro r
  induction r with
  | zero => intro idx nid acc i id h; simp [examineSteps] at h
  | succ r ih =>
    intro idx nid acc i id h
    simp only [examineSteps] at h ⊢
    cases hc : env.hasProgress <;> rw [hc] at h <;>
      cases hi : env.initOutcome idx <;> rw [hi] at h
    case false.error e => simp at h
    case true.error e => simp at h
    case false.ok u =>
      cases hp : env.pluginOutcome idx with
      | error e =>
        rw [hp] at h; simp at h
        exact ⟨[], [], by simp [h.1, h.2]⟩
      | ok v =>
        rw [hp] at h; simp at h
        rcases h with ⟨h1, h2⟩ | h
        · exact ⟨[], Event.mergeStep idx (mergeVal acc v) ::
            (examineSteps env n r (idx + 1) (nid + 1) (mergeVal acc v)).1,
            by simp [h1, h2]⟩
        · obtain ⟨pre, post, hrec⟩ := ih _ _ _ _ _ h
          exact ⟨Event.backendNew nid env.repository env.reference ::
                 Event.backendInit nid ::
                 Event.pluginRun idx nid ::
                 Event.mergeStep idx (mergeVal acc v) :: pre, post,
                 by simp [hrec]⟩
    case true.ok u =>
      cases hp : env.pluginOutcome idx with
      | error e =>
        rw [hp] at h; simp at h
        exact ⟨[Event.progress (idx * 100 / n)], [], by simp [h.1, h.2]⟩
      | ok v =>
        rw [hp] at h; simp at h
        rcases h with ⟨h1, h2⟩ | h
        · exact ⟨[Event.progress (idx * 100 / n)],
            Event.mergeStep idx (mergeVal acc v) ::
            (examineSteps env n r (idx + 1) (nid + 1) (mergeVal acc v)).1,
            by simp [h1, h2]⟩
        · obtain ⟨pre, post, hrec⟩ := ih _ _ _ _ _ h
          exact ⟨Event.progress (idx * 100 / n) ::
                 Event.backendNew nid env.repository env.reference ::
                 Event.backendInit nid ::
                 Event.pluginRun idx nid ::
                 Event.mergeStep idx (mergeVal acc v) :: pre, post,
                 by simp [hrec]⟩

/-- Every `init()` call recorded by the loop is on an instance id drawn
from the run-fresh range. -/
theorem backendInit_mem {E : Type} (env : RunEnv E) (n : Nat) :
    ∀ (r idx nid : Nat) (acc : JVal) (id : Nat),
      Event.backendInit id ∈ (examineSteps env n r idx nid acc).1 →
      nid ≤ id ∧ id < nid + r := by
  intro r
  induction r with
  | zero => intro idx nid acc id h; simp [examineSteps] at h
  | succ r ih =>
    intro idx nid acc id h
    simp only [examineSteps] at h
    cases hc : env.hasProgress <;> rw [hc] at h <;>
      cases hi : env.initOutcome idx <;> rw [hi] at h
    case false.error e => simp at h; omega
    case true.error e => simp at h; omega
    case false.ok u =>
      cases hp : env.pluginOutcome idx <;> rw [hp] at h <;> simp at h
      · omega
      · rcases h with h | h
        · omega
        · have := ih _ _ _ _ h; omega
    case true.ok u =>
      cases hp : env.pluginOutcome idx <;> rw [hp] at h <;> simp at h
      · omega
      · rcases h with h | h
        · omega
        · have := ih _ _ _ _ h; omega

/-- Instance ids below the fresh-id counter are never initialized by the
remaining loop iterations. -/
theorem countP_init_zero_of_lt {E : Type} (env : RunEnv E) (n : Nat)
    (r idx nid : Nat) (acc : JVal) (id : Nat) (hlt : id < nid) :
    (examineSteps env n r idx nid acc).1.countP (isInitFor id) = 0 := by
  rw [List.countP_eq_zero]
  intro a ha hInit
  have ha2 : a = Event.backendInit id := by
    cases a <;> simp [isInitFor] at hInit
    simp [hInit]
  rw [ha2] at ha
  have := backendInit_mem env n r idx nid acc id ha
  omega

/-- No backend instance is initialized more than once in a run. -/
theorem countP_init_le_one {E : Type} (env : RunEnv E) (n : Nat) :
    ∀ (r idx nid : Nat) (acc : JVal) (id : Nat),
      (examineSteps env n r idx nid acc).1.countP (isInitFor id) ≤ 1 := by
  intro r
  induction r with
  | zero => intro idx nid acc id; simp [examineSteps]
  | succ r ih =>
    intro idx nid acc id
    simp only [examineSteps]
    cases hc : env.hasProgress <;> cases hi : env.initOutcome idx
    case false.error e =>
      cases hid : nid == id <;>
        simp [List.countP_append, List.countP_cons, isInitFor, hid]
    case true.error e =>
      cases hid : nid == id <;>
        simp [List.countP_append, List.countP_cons, isInitFor, hid]
    case false.ok u =>
      cases hid : nid == id
      · cases hp : env.pluginOutcome idx <;>
          (simp [List.countP_append, List.countP_cons, isInitFor, hid];
           try exact ih _ _ _ _)
      · have hnid : nid = id := by simpa using hid
        have hz : ∀ acc2 : JVal,
            (examineSteps env n r (idx + 1) (nid + 1) acc2).1.countP
              (isInitFor id) = 0 := fun acc2 =>
          countP_init_zero_of_lt env n r (idx + 1) (nid + 1) acc2 id (by omega)
        cases hp : env.pluginOutcome idx <;>
          simp [List.countP_append, List.countP_cons, isInitFor, hid, hz]
    case true.ok u =>
      cases hid : nid == id
      · cases hp : env.pluginOutcome idx <;>
          (simp [List.countP_append, List.countP_cons, isInitFor, hid];
           try exact ih _ _ _ _)
      · have hnid : nid = id := by simpa using hid
        have hz : ∀ acc2 : JVal,
            (examineSteps env n r (idx + 1) (nid + 1) acc2).1.countP
              (isInitFor id) = 0 := fun acc2 =>
          countP_init_zero_of_lt env n r (idx + 1) (nid + 1) acc2 id (by omega)
        cases hp : env.pluginOutcome idx <;>
          simp [List.countP_append, List.countP_cons, isInitFor, hid, hz]

/-- The backend instance handed to a plugin was initialized exactly once
during the run. -/
theorem pluginRun_init_once {E : Type} (env : RunEnv E) (n : Nat)
    (r idx nid : Nat) (acc : JVal) (i id : Nat)
    (h : Event.pluginRun i id ∈ (examineSteps env n r idx nid acc).1) :
    (examineSteps env n r idx nid acc).1.countP (isInitFor id) = 1 := by
  obtain ⟨pre, post, hrec⟩ := pluginRun_decomp env n r idx nid acc i id h
  have hle := countP_init_le_one env n r idx nid acc id
  rw [hrec] at hle ⊢
  simp [List.countP_append, List.countP_cons, isInitFor] at hle ⊢
  omega

/-- Fail-fast semantics of the reduce loop: when every position before `k`
succeeds and position `k` fails (in `init()` or in the plugin itself) with
error `e`, the run settles on exactly `e`, no plugin beyond position `k` is
ever invoked, and no merge beyond position `k` is ever performed. -/
theorem failFast {E : Type} (env : RunEnv E) (n : Nat) (e : E) (k : Nat) :
    ∀ (r idx nid : Nat) (acc : JVal),
      idx ≤ k → k < idx + r →
      (∀ j, idx ≤ j → j < k →
        env.initOutcome j = Except.ok () ∧
        ∃ v, env.pluginOutcome j = Except.ok v) →
      (env.initOutcome k = Except.error e ∨
        (env.initOutcome k = Except.ok () ∧
         env.pluginOutcome k = Except.error e)) →
      (examineSteps env n r idx nid acc).2 = Except.error e ∧
      (∀ j id, Event.pluginRun j id ∈ (examineSteps env n r idx nid acc).1 →
        j ≤ k) ∧
      (∀ j a, Event.mergeStep j a ∈ (examineSteps env n r idx nid acc).1 →
        j < k) := by
  intro r
  induction r with
  | zero => intro idx nid acc h1 h2 _ _; omega
  | succ r ih =>
    intro idx nid acc h1 h2 hok hfail
    by_cases hik : idx = k
    · subst hik
      rcases hfail with hf | ⟨hf1, hf2⟩
      · refine ⟨?_, ?_, ?_⟩ <;>
          simp only [examineSteps] <;>
          cases hc : env.hasProgress <;> simp [hf]
      · refine ⟨?_, ?_, ?_⟩ <;>
          simp only [examineSteps] <;>
          cases hc : env.hasProgress <;> simp [hf1, hf2]
    · have hstep := hok idx (le_refl idx) (by omega)
      obtain ⟨hi, v, hp⟩ := hstep
      have hrec := ih (idx + 1) (nid + 1) (mergeVal acc v)
        (by omega) (by omega)
        (fun j hj1 hj2 => hok j (by omega) hj2) hfail
      refine ⟨?_, ?_, ?_⟩ <;>
        simp only [examineSteps] <;>
        cases hc : env.hasProgress <;> simp [hi, hp]
      · exact hrec.1
      · exact hrec.1
      · intro j id h
        rcases h with ⟨hj, _⟩ | h
        · omega
        · exact hrec.2.1 j id h
      · intro j id h
        rcases h with ⟨hj, _⟩ | h
        · omega
        · exact hrec.2.1 j id h
      · intro j a h
        rcases h with ⟨hj, _⟩ | h
        · omega
        · exact hrec.2.2 j a h
      · intro j a h
        rcases h with ⟨hj, _⟩ | h
        · omega
        · exact hrec.2.2 j a h

@[simp]
theorem successEnv_init (E : Type) (repo ref : String) (prog : Bool)
    (g : Nat → JVal) (j : Nat) :
    (successEnv E repo ref prog g).initOutcome j = Except.ok () := rfl

@[simp]
theorem successEnv_plugin (E : Type) (repo ref : String) (prog : Bool)
    (g : Nat → JVal) (j : Nat) :
    (successEnv E repo ref prog g).pluginOutcome j = Except.ok (g j) := rfl

@[simp]
theorem successEnv_prog (E : Type) (repo ref : String) (prog : Bool)
    (g : Nat → JVal) :
    (successEnv E repo ref prog g).hasProgress = prog := rfl

@[simp]
theorem successEnv_repo (E : Type) (repo ref : String) (prog : Bool)
    (g : Nat → JVal) :
    (successEnv E repo ref prog g).repository = repo := rfl

@[simp]
theorem successEnv_ref (E : Type) (repo ref : String) (prog : Bool)
    (g : Nat → JVal) :
    (successEnv E repo ref prog g).reference = ref := rfl

/-- On an all-success environment the run fulfils with the left fold of
the plugins' partial results into the accumulator under `_.merge`. -/
theorem success_result {E : Type} (repo ref : String) (prog : Bool)
    (g : Nat → JVal) (n : Nat) :
    ∀ (r idx nid : Nat) (acc : JVal),
      (examineSteps (successEnv E repo ref prog g) n r idx nid acc).2 =
        Except.ok (((List.range' idx r).map g).foldl mergeVal acc) := by
  intro r
  induction r with
  | zero => intro idx nid acc; simp [examineSteps]
  | succ r ih =>
    intro idx nid acc
    have hr : List.range' idx (r + 1) = idx :: List.range' (idx + 1) r :=
      List.range'_succ idx r 1
    simp only [examineSteps, successEnv_init, successEnv_plugin]
    simp [hr, ih (idx + 1) (nid + 1) (mergeVal acc (g idx))]

/-- In an all-success run, the accumulator value recorded after processing
extractor `i` is exactly the `_.merge` fold of the partial results of the
extractors up to and including `i` (and only in-range extractors record
merges). -/
theorem success_mergeStep_iff {E : Type} (repo ref : String) (prog : Bool)
    (g : Nat → JVal) (n : Nat) :
    ∀ (r idx nid : Nat) (acc : JVal) (i : Nat) (a : JVal),
      Event.mergeStep i a ∈
          (examineSteps (successEnv E repo ref prog g) n r idx nid acc).1 ↔
        idx ≤ i ∧ i < idx + r ∧
          a = ((List.range' idx (i + 1 - idx)).map g).foldl mergeVal acc := by
  intro r
  induction r with
  | zero =>
    intro idx nid acc i a
    simp [examineSteps]
    omega
  | succ r ih =>
    intro idx nid acc i a
    simp only [examineSteps, successEnv_init, successEnv_plugin]
    cases prog <;>
      simp [ih (idx + 1) (nid + 1) (mergeVal acc (g idx)) i a]
    all_goals {
      constructor
      · intro h
        rcases h with ⟨h1, h2⟩ | ⟨h1, h2, h3⟩
        · subst h1
          refine ⟨le_refl i, by omega, ?_⟩
          have h1i : i + 1 - i = 1 := by omega
          rw [h1i]
          simpa [List.range'_one] using h2
        · refine ⟨by omega, by omega, ?_⟩
          have hsplit : List.range' idx (i + 1 - idx) =
              idx :: List.range' (idx + 1) (i + 1 - (idx + 1)) := by
            have h1i : i + 1 - idx = (i + 1 - (idx + 1)) + 1 := by omega
            rw [h1i]
            exact List.range'_succ idx _ 1
          rw [hsplit]
          simpa using h3
      · rintro ⟨h1, h2, h3⟩
        by_cases hik : i = idx
        · subst hik
          left
          refine ⟨rfl, ?_⟩
          have h1i : i + 1 - i = 1 := by omega
          rw [h1i] at h3
          simpa [List.range'_one] using h3
        · right
          refine ⟨by omega, by omega, ?_⟩
          have hsplit : List.range' idx (i + 1 - idx) =
              idx :: List.range' (idx + 1) (i + 1 - (idx + 1)) := by
            have h1i : i + 1 - idx = (i + 1 - (idx + 1)) + 1 := by omega
            rw [h1i]
            exact List.range'_succ idx _ 1
          rw [hsplit] at h3
          simpa using h3
    }

/-- In an all-success run with a progress callback, the reported
percentages are `floor(i * 100 / n)` for the processed indices in order. -/
theorem success_progress {E : Type} (repo ref : String) (g : Nat → JVal)
    (n : Nat) :
    ∀ (r idx nid : Nat) (acc : JVal),
      progressOf (examineSteps (successEnv E repo ref true g) n r idx nid acc).1 =
        (List.range' idx r).map (fun j => j * 100 / n) := by
  intro r
  induction r with
  | zero => intro idx nid acc; simp [examineSteps, progressOf]
  | succ r ih =>
    intro idx nid acc
    have hr : List.range' idx (r + 1) = idx :: List.range' (idx + 1) r :=
      List.range'_succ idx r 1
    simp only [examineSteps, successEnv_init, successEnv_plugin, successEnv_prog]
    simp [progressOf, hr, ← ih (idx + 1) (nid + 1) (mergeVal acc (g idx)),
      List.filterMap_append]

/-- In an all-success run with a progress callback, for every position `i`
the trace contains, contiguously and in order: the progress report for `i`,
the construction of the fresh backend for `i`, its `init()` call, the
plugin invocation, and the merge of its partial result. -/
theorem success_decomp {E : Type} (repo ref : String) (g : Nat → JVal)
    (n : Nat) :
    ∀ (r idx nid : Nat) (acc : JVal) (i : Nat), idx ≤ i → i < idx + r →
      ∃ pre post a,
        (examineSteps (successEnv E repo ref true g) n r idx nid acc).1 =
          pre ++ Event.progress (i * 100 / n) ::
                 Event.backendNew (nid + (i - idx)) repo ref ::
                 Event.backendInit (nid + (i - idx)) ::
                 Event.pluginRun i (nid + (i - idx)) ::
                 Event.mergeStep i a :: post := by
  intro r
  induction r with
  | zero => intro idx nid acc i h1 h2; omega
  | succ r ih =>
    intro idx nid acc i h1 h2
    by_cases hik : i = idx
    · subst hik
      refine ⟨[], (examineSteps (successEnv E repo ref true g) n r
          (i + 1) (nid + 1) (mergeVal acc (g i))).1, mergeVal acc (g i), ?_⟩
      simp only [examineSteps, successEnv_init, successEnv_plugin,
        successEnv_prog, successEnv_repo, successEnv_ref]
      simp
    · obtain ⟨pre, post, a, hrec⟩ := ih (idx + 1) (nid + 1)
        (mergeVal acc (g idx)) i (by omega) (by omega)
      refine ⟨Event.progress (idx * 100 / n) ::
              Event.backendNew nid repo ref ::
              Event.backendInit nid ::
              Event.pluginRun idx nid ::
              Event.mergeStep idx (mergeVal acc (g idx)) :: pre, post, a, ?_⟩
      have harith : nid + 1 + (i - (idx + 1)) = nid + (i - idx) := by omega
      rw [harith] at hrec
      simp only [examineSteps, successEnv_init, successEnv_plugin,
        successEnv_prog, successEnv_repo, successEnv_ref]
      simp [hrec]

/-- The settled result of the reduce loop depends only on the backend-init
and plugin outcomes at the processed positions: not on the repository
strings, the progress callback, or the backend instance ids. -/
theorem result_congr {E : Type} (env1 env2 : RunEnv E) (n1 n2 : Nat) :
    ∀ (r idx nid1 nid2 : Nat) (acc : JVal),
      (∀ j, idx ≤ j → j < idx + r →
        env1.initOutcome j = env2.initOutcome j ∧
        env1.pluginOutcome j = env2.pluginOutcome j) →
      (examineSteps env1 n1 r idx nid1 acc).2 =
        (examineSteps env2 n2 r idx nid2 acc).2 := by
  intro r
  induction r with
  | zero => intro idx nid1 nid2 acc h; simp [examineSteps]
  | succ r ih =>
    intro idx nid1 nid2 acc h
    obtain ⟨hi, hp⟩ := h idx (le_refl idx) (by omega)
    simp only [examineSteps]
    rw [hi, hp]
    cases hi2 : env2.initOutcome idx with
    | error e => simp
    | ok u =>
      cases hp2 : env2.pluginOutcome idx with
      | error e => simp
      | ok v =>
        simpa using ih (idx + 1) (nid1 + 1) (nid2 + 1) (mergeVal acc v)
          (fun j hj1 hj2 => h j (by omega) (by omega))

/-- The keys of an object in property order. -/
def objKeys {V : Type} (o : List (String × V)) : List String :=
  o.map (fun p => p.1)

/-- First-occurrence deduplication modulo an already-seen set: the order in
which JavaScript object insertion retains keys. -/
def dedupFirstAux (seen : List String) : List String → List String
  | [] => []
  | x :: xs =>
      if x ∈ seen then dedupFirstAux seen xs
      else x :: dedupFirstAux (x :: seen) xs

theorem dedupFirstAux_congr (xs : List String) :
    ∀ (s1 s2 : List String), (∀ a, a ∈ s1 ↔ a ∈ s2) →
      dedupFirstAux s1 xs = dedupFirstAux s2 xs := by
  induction xs with
  | nil => intro s1 s2 h; rfl
  | cons x xs ih =>
    intro s1 s2 h
    by_cases hx : x ∈ s1
    · simp [dedupFirstAux, hx, (h x).mp hx, ih s1 s2 h]
    · have hx2 : x ∉ s2 := fun hc => hx ((h x).mpr hc)
      simp only [dedupFirstAux, if_neg hx, if_neg hx2]
      refine congrArg _ (ih _ _ ?_)
      intro a
      simp [h a]

theorem dedupFirstAux_subset (xs : List String) :
    ∀ (seen : List String) (a : String), a ∈ dedupFirstAux seen xs → a ∈ xs := by
  induction xs with
  | nil => intro seen a h; simp [dedupFirstAux] at h
  | cons x xs ih =>
    intro seen a h
    by_cases hx : x ∈ seen
    · simp only [dedupFirstAux, if_pos hx] at h
      exact List.mem_cons_of_mem x (ih seen a h)
    · simp only [dedupFirstAux, if_neg hx, List.mem_cons] at h
      rcases h with h | h
      · simp [h]
      · exact List.mem_cons_of_mem x (ih _ a h)

theorem objFind_isSome_iff {V : Type} (o : List (String × V)) (k : String) :
    (objFind o k).isSome = true ↔ k ∈ objKeys o := by
  induction o with
  | nil => simp [objFind, objKeys]
  | cons p rest ih =>
    obtain ⟨k0, v0⟩ := p
    by_cases hk : k0 = k <;> simp [objFind_cons, hk, objKeys, ih] <;>
      simp [objKeys] at ih <;> tauto

theorem baseSet_of_consistent {V : Type} (src r : List (String × V))
    (p : String) (v : V)
    (hinv : ∀ q ∈ r, objFind src q.1 = some q.2)
    (hs : objFind src p = some v)
    (hf : (objFind r p).isSome = true) :
    baseSet r p v = r := by
  unfold baseSet
  rw [if_pos hf]
  have hval : ∀ q ∈ r, q.1 = p → q.2 = v := by
    intro q hq hqp
    have := hinv q hq
    rw [hqp, hs] at this
    exact (Option.some.injEq _ _ ▸ this.symm :)
  clear hinv hs hf
  induction r with
  | nil => rfl
  | cons q rest ih =>
    obtain ⟨k0, v0⟩ := q
    by_cases hk : k0 = p
    · subst hk
      have hv0 : v0 = v := hval (k0, v0) (by simp) rfl
      subst hv0
      simp only [List.map_cons, beq_self_eq_true, if_pos]
      refine congrArg _ (ih ?_)
      intro q hq hqp
      exact hval q (List.mem_cons_of_mem _ hq) hqp
    · simp only [List.map_cons]
      have hbeq : (k0 == p) = false := by simp [hk]
      rw [hbeq]
      simp only [Bool.false_eq_true, if_false]
      refine congrArg _ (ih ?_)
      intro q hq hqp
      exact hval q (List.mem_cons_of_mem _ hq) hqp

theorem pickAux_values {V : Type} (src : List (String × V)) (vdef : V) :
    ∀ (ps : List String) (r : List (String × V)),
      (∀ q ∈ r, objFind src q.1 = some q.2) →
      lodashValues (pickAux src r ps) =
        lodashValues r ++
          (dedupFirstAux (objKeys r)
            (ps.filter (fun p => (objFind src p).isSome))).map
            (fun k => (objFind src k).getD vdef) := by
  intro ps
  induction ps with
  | nil => intro r hinv; simp [pickAux, dedupFirstAux]
  | cons p ps ih =>
    intro r hinv
    cases hs : objFind src p with
    | none =>
      have hfilter : (List.filter (fun p => (objFind src p).isSome) (p :: ps)) =
          List.filter (fun p => (objFind src p).isSome) ps := by
        simp [List.filter_cons, hs]
      simp only [pickAux, hs, hfilter]
      exact ih r hinv
    | some v =>
      have hfilter : (List.filter (fun p => (objFind src p).isSome) (p :: ps)) =
          p :: List.filter (fun p => (objFind src p).isSome) ps := by
        simp [List.filter_cons, hs]
      simp only [pickAux, hs, hfilter]
      cases hf : (objFind r p).isSome with
      | true =>
        have hset : baseSet r p v = r :=
          baseSet_of_consistent src r p v hinv hs hf
        have hmem : p ∈ objKeys r := (objFind_isSome_iff r p).mp hf
        rw [hset]
        simp only [dedupFirstAux, if_pos hmem]
        exact ih r hinv
      | false =>
        have hnmem : p ∉ objKeys r := by
          intro hc
          rw [(objFind_isSome_iff r p).mpr hc] at hf
          simp at hf
        have hset : baseSet r p v = r ++ [(p, v)] := by
          unfold baseSet
          rw [hf]
          simp
        rw [hset]
        have hinv2 : ∀ q ∈ r ++ [(p, v)], objFind src q.1 = some q.2 := by
          intro q hq
          rcases List.mem_append.mp hq with hq | hq
          · exact hinv q hq
          · simp at hq
            subst hq
            exact hs
        rw [ih (r ++ [(p, v)]) hinv2]
        have hkeys : objKeys (r ++ [(p, v)]) = objKeys r ++ [p] := by
          simp [objKeys]
        rw [hkeys]
        have hcongr : dedupFirstAux (objKeys r ++ [p])
              (List.filter (fun p => (objFind src p).isSome) ps) =
            dedupFirstAux (p :: objKeys r)
              (List.filter (fun p => (objFind src p).isSome) ps) := by
          apply dedupFirstAux_congr
          intro a
          simp [or_comm]
        rw [hcongr]
        simp only [dedupFirstAux, if_neg hnmem]
        simp [lodashValues, hs]

theorem objFind_diag : ∀ (ns : List String) (k : String),
    objFind (ns.map (fun s => (s, s))) k = if k ∈ ns then some k else none := by
  intro ns
  induction ns with
  | nil => intro k; simp [objFind]
  | cons x xs ih =>
    intro k
    by_cases hk : x = k
    · subst hk
      simp [objFind_cons]
    · simp [objFind_cons, hk, ih k, eq_comm]

theorem BUILTIN_diag :
    BUILTIN_PLUGINS = BUILTIN_PLUGIN_NAMES.map (fun s => (s, s)) := rfl

theorem objFind_builtin (k : String) :
    objFind BUILTIN_PLUGINS k =
      if k ∈ BUILTIN_PLUGIN_NAMES then some k else none := by
  rw [BUILTIN_diag]
  exact objFind_diag BUILTIN_PLUGIN_NAMES k

theorem filterPlugins_empty_case (wl : Option (List String))
    (h : lodashIsEmpty wl = true) : filterPlugins wl = BUILTIN_PLUGIN_NAMES := by
  unfold filterPlugins
  rw [h]
  simp [BUILTIN_PLUGIN_NAMES]

theorem filterPlugins_nonempty_case (l : List String) (h : l ≠ []) :
    filterPlugins (some l) =
      dedupFirstAux [] (l.filter (fun p => decide (p ∈ BUILTIN_PLUGIN_NAMES))) := by
  have hne : lodashIsEmpty (some l) = false := by simp [lodashIsEmpty, h]
  unfold filterPlugins
  rw [hne]
  simp only [Bool.false_eq_true, if_false, Option.getD_some, lodashPick]
  rw [pickAux_values BUILTIN_PLUGINS "" l [] (by simp)]
  have hfilter : l.filter (fun p => (objFind BUILTIN_PLUGINS p).isSome) =
      l.filter (fun p => decide (p ∈ BUILTIN_PLUGIN_NAMES)) := by
    apply List.filter_congr
    intro p hp
    rw [objFind_builtin p]
    by_cases hmem : p ∈ BUILTIN_PLUGIN_NAMES <;> simp [hmem]
  rw [hfilter]
  have hid : ∀ k ∈ dedupFirstAux ([] : List String)
      (l.filter (fun p => decide (p ∈ BUILTIN_PLUGIN_NAMES))),
      (objFind BUILTIN_PLUGINS k).getD "" = k := by
    intro k hk
    have hkl := dedupFirstAux_subset _ _ _ hk
    have hkmem : k ∈ BUILTIN_PLUGIN_NAMES := by
      have := List.of_mem_filter hkl
      simpa using this
    rw [objFind_builtin k, if_pos hkmem]
    rfl
  simp only [lodashValues, List.map_nil, objKeys, List.nil_append]
  rw [List.map_congr_left hid]
  simp

/-- C1: after the orchestrator processes extractor `i`, the accumulator
equals the deep merge of the partial results of extractors up to `i`
(`_.merge` folded left over the partial results, starting from the empty
accumulator); on scalar conflicts the later partial result wins, mapping
fields merge key-by-key, and sequence fields merge by index, the longer
sequence's trailing elements surviving. -/
theorem claim_C1_accumulator_merge_invariant {E : Type} (repo ref : String)
    (prog : Bool) (g : Nat → JVal) (n id0 : Nat) :
    (∀ i a, Event.mergeStep i a ∈
        (examineGitRepository (successEnv E repo ref prog g) n
          (JVal.obj []) id0).1 ↔
      i < n ∧ a = ((List.range (i + 1)).map g).foldl mergeVal (JVal.obj [])) ∧
    (examineGitRepository (successEnv E repo ref prog g) n
        (JVal.obj []) id0).2 =
      Except.ok (((List.range n).map g).foldl mergeVal (JVal.obj [])) ∧
    (∀ d s, s.isScalar = true → mergeVal d s = s) ∧
    (∀ d s k, objFind (mergeVal (JVal.obj d) (JVal.obj s)).fields k =
      match objFind d k, objFind s k with
      | some dv, some sv => some (mergeVal dv sv)
      | some dv, none => some dv
      | none, o => o) ∧
    (∀ (a b : List JVal) (i : Nat), (mergeArr a b)[i]? =
      match a[i]?, b[i]? with
      | some x, some y => some (mergeVal x y)
      | some x, none => some x
      | none, some y => some y
      | none, none => none) ∧
    (∀ (a b : List JVal) (i : Nat), b.length ≤ i → i < a.length →
      (mergeArr a b)[i]? = a[i]?) := by
  refine ⟨?_, ?_, mergeVal_scalar, objFind_merge, mergeArr_getElem?, ?_⟩
  · intro i a
    rw [examineGitRepository,
      success_mergeStep_iff repo ref prog g n n 0 id0 (JVal.obj []) i a]
    have : i + 1 - 0 = i + 1 := by omega
    rw [this, ← List.range_eq_range']
    constructor
    · rintro ⟨h1, h2, h3⟩
      exact ⟨by omega, h3⟩
    · rintro ⟨h1, h2⟩
      exact ⟨by omega, by omega, h2⟩
  · rw [examineGitRepository,
      success_result repo ref prog g n n 0 id0 (JVal.obj []),
      ← List.range_eq_range']
  · intro a b i hb ha
    rw [mergeArr_getElem?]
    have hbn : b[i]? = none := by
      rw [List.getElem?_eq_none hb]
    have han : a[i]? = some a[i] := List.getElem?_eq_getElem ha
    rw [hbn, han]

/-- C1 witness: concrete one-plugin success run recording its merge. -/
theorem claim_C1_witness :
    Event.mergeStep 0
        (((List.range 1).map (fun _ => JVal.num 7)).foldl mergeVal (JVal.obj []))
      ∈ (examineGitRepository
          (successEnv Unit "repo" "master" false (fun _ => JVal.num 7)) 1
          (JVal.obj []) 0).1 :=
  ((claim_C1_accumulator_merge_invariant "repo" "master" false
      (fun _ => JVal.num 7) 1 0).1 0 _).mpr ⟨by decide, rfl⟩

/-- C2: if backend initialization or the plugin itself fails at position `k`
of a run of `n` extractors (all earlier positions succeeding), the run
settles on exactly that error, no plugin at a later position is ever
invoked, no merge at or beyond position `k` is performed, and the run never
fulfils with an accumulator. -/
theorem claim_C2_fail_fast {E : Type} (env : RunEnv E) (n : Nat) (e : E)
    (k : Nat) (acc0 : JVal) (id0 : Nat)
    (hk : k < n)
    (hok : ∀ j, j < k → env.initOutcome j = Except.ok () ∧
      ∃ v, env.pluginOutcome j = Except.ok v)
    (hfail : env.initOutcome k = Except.error e ∨
      (env.initOutcome k = Except.ok () ∧
       env.pluginOutcome k = Except.error e)) :
    (examineGitRepository env n acc0 id0).2 = Except.error e ∧
    (∀ j id, Event.pluginRun j id ∈ (examineGitRepository env n acc0 id0).1 →
      j ≤ k) ∧
    (∀ j a, Event.mergeStep j a ∈ (examineGitRepository env n acc0 id0).1 →
      j < k) ∧
    (∀ v, (examineGitRepository env n acc0 id0).2 ≠ Except.ok v) := by
  have h := failFast env n e k n 0 id0 acc0 (Nat.zero_le k) (by omega)
    (fun j _ hj2 => hok j hj2) hfail
  refine ⟨h.1, h.2.1, h.2.2, ?_⟩
  intro v hv
  have h1 : (examineGitRepository env n acc0 id0).2 = Except.error e := h.1
  rw [h1] at hv
  exact Except.noConfusion hv

/-- C2 witness: a two-plugin run whose first plugin rejects. -/
theorem claim_C2_witness :
    (examineGitRepository
        (⟨"repo", "master", fun _ => Except.ok (),
          fun _ => Except.error "boom", false⟩ : RunEnv String) 2
        (JVal.obj []) 0).2 = Except.error "boom" :=
  (claim_C2_fail_fast
    (⟨"repo", "master", fun _ => Except.ok (),
      fun _ => Except.error "boom", false⟩ : RunEnv String) 2 "boom" 0
    (JVal.obj []) 0 (by decide)
    (fun j hj => absurd hj (by omega))
    (Or.inr ⟨rfl, rfl⟩)).1

/-- C4: with a progress sink supplied, an `n`-extractor success run reports
exactly `floor(i * 100 / n)` for `i = 0, …, n-1` in order (so `0` comes
first), every reported value is at most `99`, `100` is never reported, the
final reported value is `floor((n-1) * 100 / n)`, and each report is
emitted immediately before the corresponding extractor's backend is
constructed, initialized and run. -/
theorem claim_C4_progress_reporting {E : Type} (repo ref : String)
    (g : Nat → JVal) (n id0 : Nat) :
    progressOf (examineGitRepository (successEnv E repo ref true g) n
        (JVal.obj []) id0).1 =
      (List.range n).map (fun i => i * 100 / n) ∧
    (∀ p ∈ progressOf (examineGitRepository (successEnv E repo ref true g) n
        (JVal.obj []) id0).1, p ≤ 99) ∧
    Event.progress 100 ∉
      (examineGitRepository (successEnv E repo ref true g) n
        (JVal.obj []) id0).1 ∧
    (0 < n → (progressOf (examineGitRepository (successEnv E repo ref true g)
        n (JVal.obj []) id0).1).getLast? = some ((n - 1) * 100 / n)) ∧
    (∀ i, i < n → ∃ pre post a,
      (examineGitRepository (successEnv E repo ref true g) n
          (JVal.obj []) id0).1 =
        pre ++ Event.progress (i * 100 / n) ::
               Event.backendNew (id0 + i) repo ref ::
               Event.backendInit (id0 + i) ::
               Event.pluginRun i (id0 + i) ::
               Event.mergeStep i a :: post) := by
  have hbound : ∀ i, i < n → i * 100 / n ≤ 99 := by
    intro i hi
    have hn : 0 < n := by omega
    have : i * 100 / n < 100 := by
      rw [Nat.div_lt_iff_lt_mul hn]
      calc i * 100 ≤ (n - 1) * 100 := by
            exact Nat.mul_le_mul_right 100 (by omega)
        _ < 100 * n := by omega
    omega
  have hprog : progressOf (examineGitRepository (successEnv E repo ref true g)
      n (JVal.obj []) id0).1 = (List.range n).map (fun i => i * 100 / n) := by
    rw [examineGitRepository, success_progress repo ref g n n 0 id0 (JVal.obj []),
      ← List.range_eq_range']
  refine ⟨hprog, ?_, ?_, ?_, ?_⟩
  · intro p hp
    rw [hprog] at hp
    simp at hp
    obtain ⟨i, hi, hpe⟩ := hp
    exact hpe ▸ hbound i hi
  · intro hmem
    have h100 : (100 : Nat) ∈ progressOf
        (examineGitRepository (successEnv E repo ref true g) n
          (JVal.obj []) id0).1 := by
      rw [progressOf, List.mem_filterMap]
      exact ⟨Event.progress 100, hmem, rfl⟩
    rw [hprog] at h100
    simp at h100
    obtain ⟨i, hi, hpe⟩ := h100
    have := hbound i hi
    omega
  · intro hn
    rw [hprog]
    have hsplit : List.range n = List.range (n - 1) ++ [n - 1] := by
      have : n = (n - 1) + 1 := by omega
      rw [this, List.range_succ]
      simp
    rw [hsplit, List.map_append]
    simp
  · intro i hi
    have h := @success_decomp E repo ref g n n 0 id0 (JVal.obj []) i
      (Nat.zero_le i) (by omega)
    simpa [examineGitRepository] using h

/-- C4 witness: a two-plugin run reports 0 then 50 and nothing else. -/
theorem claim_C4_witness :
    progressOf (examineGitRepository
        (successEnv Unit "repo" "master" true (fun _ => JVal.obj [])) 2
        (JVal.obj []) 0).1 =
      (List.range 2).map (fun i => i * 100 / 2) :=
  (claim_C4_progress_reporting "repo" "master" (fun _ => JVal.obj []) 2 0).1

/-- C8: in every run (regardless of outcomes), each plugin invocation
receives the fresh backend instance constructed for exactly its position
(so no instance is ever shared between two extractors), that instance's
construction and `init()` call appear in the trace immediately before the
plugin invocation (hence before any read the plugin performs), and the
instance is initialized exactly once during the run. -/
theorem claim_C8_fresh_backend_per_extractor {E : Type} (env : RunEnv E)
    (n : Nat) (acc0 : JVal) (id0 : Nat) :
    (∀ i id, Event.pluginRun i id ∈
        (examineGitRepository env n acc0 id0).1 → id = id0 + i) ∧
    (∀ i j id id',
      Event.pluginRun i id ∈ (examineGitRepository env n acc0 id0).1 →
      Event.pluginRun j id' ∈ (examineGitRepository env n acc0 id0).1 →
      (id = id' ↔ i = j)) ∧
    (∀ i id, Event.pluginRun i id ∈ (examineGitRepository env n acc0 id0).1 →
      ∃ pre post, (examineGitRepository env n acc0 id0).1 =
        pre ++ Event.backendNew id env.repository env.reference ::
               Event.backendInit id :: Event.pluginRun i id :: post) ∧
    (∀ i id, Event.pluginRun i id ∈ (examineGitRepository env n acc0 id0).1 →
      ((examineGitRepository env n acc0 id0).1.countP (isInitFor id)) = 1) := by
  have hmem : ∀ i id, Event.pluginRun i id ∈
      (examineGitRepository env n acc0 id0).1 → id = id0 + i := by
    intro i id h
    have := pluginRun_mem env n n 0 id0 acc0 i id h
    omega
  refine ⟨hmem, ?_, ?_, ?_⟩
  · intro i j id id' hi hj
    have h1 := hmem i id hi
    have h2 := hmem j id' hj
    omega
  · intro i id h
    exact pluginRun_decomp env n n 0 id0 acc0 i id h
  · intro i id h
    exact pluginRun_init_once env n n 0 id0 acc0 i id h

/-- C8 witness: the backend instance used by the plugin at position 0 of a
concrete one-plugin run is initialized exactly once. -/
theorem claim_C8_witness :
    ((examineGitRepository
        (successEnv Unit "repo" "master" false (fun _ => JVal.obj [])) 1
        (JVal.obj []) 5).1.countP (isInitFor 5)) = 1 :=
  (claim_C8_fresh_backend_per_extractor
    (successEnv Unit "repo" "master" false (fun _ => JVal.obj [])) 1
    (JVal.obj []) 5).2.2.2 0 5
    (by simp [examineGitRepository, examineSteps])

/-- C9: the settled merged result is a function of the backend responses
alone — two runs of the same request whose backends respond identically
settle identically, whatever the progress sink, instance ids, or locator
strings. -/
theorem claim_C9_deterministic_pipeline {E : Type} (env1 env2 : RunEnv E)
    (n : Nat) (acc0 : JVal) (id1 id2 : Nat)
    (hinit : ∀ i, i < n → env1.initOutcome i = env2.initOutcome i)
    (hplug : ∀ i, i < n → env1.pluginOutcome i = env2.pluginOutcome i) :
    (examineGitRepository env1 n acc0 id1).2 =
      (examineGitRepository env2 n acc0 id2).2 :=
  result_congr env1 env2 n n n 0 id1 id2 acc0
    (fun j _ hj2 => ⟨hinit j (by omega), hplug j (by omega)⟩)

/-- C9 witness: the same backend responses with and without a progress sink
settle identically. -/
theorem claim_C9_witness :
    (examineGitRepository
        (successEnv Unit "repo" "master" true (fun _ => JVal.num 3)) 1
        (JVal.obj []) 0).2 =
      (examineGitRepository
        (successEnv Unit "repo" "master" false (fun _ => JVal.num 3)) 1
        (JVal.obj []) 7).2 :=
  claim_C9_deterministic_pipeline
    (successEnv Unit "repo" "master" true (fun _ => JVal.num 3))
    (successEnv Unit "repo" "master" false (fun _ => JVal.num 3)) 1
    (JVal.obj []) 0 7 (fun i _ => rfl) (fun i _ => rfl)

/-- C10: a non-empty whitelist containing only names absent from the
registry selects no plugins, and running the orchestrator over the selected
(empty) plugin list fulfils with the empty accumulator and an empty trace:
the progress sink is never invoked. -/
theorem claim_C10_unknown_whitelist (l : List String) (hne : l ≠ [])
    (hunk : ∀ w ∈ l, w ∉ BUILTIN_PLUGIN_NAMES) :
    filterPlugins (some l) = [] ∧
    (∀ (E : Type) (env : RunEnv E) (id0 : Nat),
      examineGitRepository env ((filterPlugins (some l)).length)
          (JVal.obj []) id0 =
        ([], Except.ok (JVal.obj []))) := by
  have hsel : filterPlugins (some l) = [] := by
    rw [filterPlugins_nonempty_case l hne]
    have hfil : l.filter (fun p => decide (p ∈ BUILTIN_PLUGIN_NAMES)) = [] := by
      rw [List.filter_eq_nil_iff]
      intro a ha
      simp [hunk a ha]
    rw [hfil]
    rfl
  refine ⟨hsel, ?_⟩
  intro E env id0
  rw [hsel]
  rfl

/-- C10 witness: a concrete unknown-only whitelist. -/
theorem claim_C10_witness :
    filterPlugins (some ["nonexistent-plugin"]) = [] :=
  (claim_C10_unknown_whitelist ["nonexistent-plugin"] (by decide)
    (by decide)).1

/-- C3 counterexample: with whitelist `["blog", "license"]`, `filterPlugins`
returns the plugins in whitelist order `["blog", "license"]`, not the
canonical registration order `["license", "blog"]` the claim requires
(lodash `_.pick` builds its result object in path order). -/
theorem claim_C3_counterexample :
    filterPlugins (some ["blog", "license"]) = ["blog", "license"] ∧
    BUILTIN_PLUGIN_NAMES.filter
        (fun p => decide (p ∈ (["blog", "license"] : List String))) =
      ["license", "blog"] ∧
    filterPlugins (some ["blog", "license"]) ≠
      BUILTIN_PLUGIN_NAMES.filter
        (fun p => decide (p ∈ (["blog", "license"] : List String))) := by
  refine ⟨by decide, by decide, by decide⟩

/-- C3 (amended): an empty or absent whitelist selects every registered
extractor in canonical registration order; a non-empty whitelist selects
exactly the named extractors that exist, in the order of their first
occurrence in the whitelist (not the canonical order), silently dropping
unknown names without error. -/
theorem claim_C3_amended_selector (wl : Option (List String)) :
    (lodashIsEmpty wl = true → filterPlugins wl = BUILTIN_PLUGIN_NAMES) ∧
    (∀ l, wl = some l → l ≠ [] →
      filterPlugins wl =
        dedupFirstAux []
          (l.filter (fun p => decide (p ∈ BUILTIN_PLUGIN_NAMES)))) := by
  constructor
  · exact filterPlugins_empty_case wl
  · intro l hl hne
    subst hl
    exact filterPlugins_nonempty_case l hne

/-- C3 witness: the amended characterization evaluated on a concrete
whitelist holding one unknown and two known names. -/
theorem claim_C3_witness :
    filterPlugins (some ["docs", "nope", "blog"]) =
      dedupFirstAux []
        (["docs", "nope", "blog"].filter
          (fun p => decide (p ∈ BUILTIN_PLUGIN_NAMES))) :=
  (claim_C3_amended_selector (some ["docs", "nope", "blog"])).2
    ["docs", "nope", "blog"] rfl (by decide)

/-- C5 counterexample: when `exports.local`'s promise settles, the
temporary clone directory is still on disk with the cloned contents — the
run itself never removes it (removal is deferred to the `tmp` library's
process-exit cleanup). -/
theorem claim_C5_counterexample :
    runOps
        (fun r => if r = "repo" then some [("README.md", "hello")] else none)
        (localCloneOps "repo" "/tmp/scrutinizer_1") "/tmp/scrutinizer_1" =
      some [("README.md", "hello")] := by
  decide

/-- C5 (amended): the caller's original repository tree is never modified
by a local run, and the temporary clone directory, still present when the
run completes, is removed (with all contents) by the graceful cleanup at
process exit, after which every other path holds exactly its pre-run
contents. -/
theorem claim_C5_amended_cleanup_at_exit (fs : FsState) (src tmpd : String)
    (hneq : src ≠ tmpd) :
    runOps (runOps fs (localCloneOps src tmpd)) (gracefulCleanupOps tmpd)
        tmpd = none ∧
    (∀ r, r ≠ tmpd →
      runOps (runOps fs (localCloneOps src tmpd)) (gracefulCleanupOps tmpd)
          r = fs r) ∧
    runOps fs (localCloneOps src tmpd) src = fs src := by
  refine ⟨?_, ?_, ?_⟩
  · simp [runOps, localCloneOps, gracefulCleanupOps, applyOp]
  · intro r hr
    simp [runOps, localCloneOps, gracefulCleanupOps, applyOp, hr]
  · simp [runOps, localCloneOps, gracefulCleanupOps, applyOp, hneq]

/-- C5 witness: the amended guarantee evaluated on a concrete filesystem. -/
theorem claim_C5_witness :
    runOps (runOps
        (fun r => if r = "repo" then some [("README.md", "hello")] else none)
        (localCloneOps "repo" "/tmp/scrutinizer_1"))
      (gracefulCleanupOps "/tmp/scrutinizer_1") "/tmp/scrutinizer_1" = none :=
  (claim_C5_amended_cleanup_at_exit
    (fun r => if r = "repo" then some [("README.md", "hello")] else none)
    "repo" "/tmp/scrutinizer_1" (by decide)).1

/-- C6: the changelog plugin's fallback is broken — on a repository with no
`.versionbot/CHANGELOG.yml` (read as empty) and a non-empty `CHANGELOG.md`,
the inner emptiness test re-checks the YAML contents instead of the
markdown just read, so the plugin returns the empty placeholder
`{changelog: []}` rather than a changelog derived from the markdown file,
contradicting its own comment and the spec. -/
theorem claim_C6_changelog_code_bug :
    changelogPlugin
        (fun p => if p = "CHANGELOG.md" then "# Changelog entry v1.0.0" else "")
        (fun _ => JVal.null) =
      JVal.obj [("changelog", JVal.arr [])] ∧
    JVal.obj [("changelog", JVal.arr [])] ≠
      JVal.obj [("changelog",
        JVal.str ((fun p => if p = "CHANGELOG.md" then "# Changelog entry v1.0.0"
          else "") "CHANGELOG.md"))] := by
  constructor
  · rfl
  · simp

/-- C7 counterexample: the architecture plugin's partial result on a
repository with no architecture documents binds the `architecture` field to
an explicit `null` placeholder — the field is present and null, not absent. -/
theorem claim_C7_counterexample :
    architecturePlugin (fun _ => "") (fun s => s) =
      JVal.obj [("architecture", JVal.null)] := by
  rfl

/-- C7 (amended): plugins represent absent values by omitting the field or
by a semantically meaningful empty value — the changelog plugin's empty
entry list — except the architecture plugin, which always emits the
`architecture` field and binds it to an explicit `null` exactly when
neither architecture document yields non-empty converted content. -/
theorem claim_C7_amended_null_exception (readFile : String → String)
    (conv : String → String) (yl : String → JVal) :
    (∃ v, architecturePlugin readFile conv = JVal.obj [("architecture", v)]) ∧
    (architecturePlugin readFile conv = JVal.obj [("architecture", JVal.null)]
      ↔ ((jsTrim (conv (readFile "ARCHITECTURE.md"))).isEmpty = true ∧
         (jsTrim (conv (readFile "docs/ARCHITECTURE.md"))).isEmpty = true)) ∧
    ((readFile ".versionbot/CHANGELOG.yml").isEmpty = true →
      changelogPlugin readFile yl = JVal.obj [("changelog", JVal.arr [])]) := by
  refine ⟨?_, ?_, ?_⟩
  · exact ⟨_, rfl⟩
  · unfold architecturePlugin
    by_cases h1 : (jsTrim (conv (readFile "ARCHITECTURE.md"))).isEmpty <;>
      by_cases h2 : (jsTrim (conv (readFile "docs/ARCHITECTURE.md"))).isEmpty <;>
      simp [h1, h2]
  · intro h
    simp [changelogPlugin, h]

/-- C7 witness: the amended characterization on a concrete empty backend. -/
theorem claim_C7_witness :
    changelogPlugin (fun _ => "") (fun _ => JVal.null) =
      JVal.obj [("changelog", JVal.arr [])] :=
  (claim_C7_amended_null_exception (fun _ => "") (fun s => s)
    (fun _ => JVal.null)).2.2 rfl
